import Mathlib

/-! Shallow embedding of the BFV12 library: the polynomial ring engine of
src/poly.rs, key generation of src/keys.rs, plaintext construction and
encryption of src/plaintext.rs, and the ciphertext operations of
src/ciphertext.rs.  A polynomial is its coefficient list (index i holds the
coefficient of X to the i), matching the `Poly(Vec<i64>)` newtype.  Rust's
`%` and `/` on i64 are truncated remainder and division, embedded as
`Int.tmod` and `Int.tdiv`. -/

namespace Bfv

/-- `impl Add<Poly> for Poly` (src/poly.rs:11-25): elementwise sum over
`0..max_degree`, reading a missing position as 0. -/
def polyAdd (a b : List Int) : List Int :=
  (List.range (max a.length b.length)).map fun i =>
    (if i < a.length then a.getD i 0 else 0) + (if i < b.length then b.getD i 0 else 0)

/-- `impl Sub<Poly> for Poly` (src/poly.rs:27-41): elementwise difference over
`0..max_degree`, reading a missing position as 0. -/
def polySub (a b : List Int) : List Int :=
  (List.range (max a.length b.length)).map fun i =>
    (if i < a.length then a.getD i 0 else 0) - (if i < b.length then b.getD i 0 else 0)

/-- `impl Neg for Poly` (src/poly.rs:43-51): negate every coefficient. -/
def polyNeg (a : List Int) : List Int := a.map fun c => -c

/-- `impl Mul<i64> for Poly` (src/poly.rs:53-59): scale every coefficient. -/
def polyScalarMul (a : List Int) (k : Int) : List Int := a.map fun c => c * k

/-- Coefficient k of the schoolbook convolution: the loop of
`impl Mul<Poly> for Poly` (src/poly.rs:83-95) adds `a[i] * b[j]` into
`out_val[i + j]`, so entry k accumulates all products with `i + j = k`. -/
def convCoeff (a b : List Int) (k : Nat) : Int :=
  ∑ i ∈ Finset.range a.length, ∑ j ∈ Finset.range b.length,
    if i + j = k then a.getD i 0 * b.getD j 0 else 0

/-- The convolution table of `impl Mul<Poly> for Poly` for operands that are
not both empty: `vec![0; n1 + n2 - 1]` filled by the double loop.  (Lean's
`Nat` subtraction is truncated; the checked entry point is `polyMul`.) -/
def polyMulRaw (a b : List Int) : List Int :=
  (List.range (a.length + b.length - 1)).map (convCoeff a b)

/-- `impl Mul<Poly> for Poly` (src/poly.rs:83-95).  When both operands are
empty, `self.0.len() + other.0.len() - 1` underflows `usize` and the program
aborts (panic in debug, an absurd allocation otherwise); that aborted run is
`none`. -/
def polyMul (a b : List Int) : Option (List Int) :=
  if a.length + b.length = 0 then none else some (polyMulRaw a b)

/-- `Poly::mod_coeff` (src/poly.rs:138-149): `(coeff % q + q) % q` with Rust's
truncated `%`. -/
def modCoeff (c q : Int) : Int := (c.tmod q + q).tmod q

/-- The degree-reduction loop of `impl Rem<(i64, usize)> for Poly`
(src/poly.rs:109-118): fold coefficient `c` at index `i` into the
accumulator `out` at `i % (2n) % n`, subtracting when `i % (2n) >= n`. -/
def remFold (n : Nat) : List Int → Nat → List Int → List Int
  | [], _, out => out
  | c :: cs, i, out =>
    let r := i % (2 * n)
    remFold n cs (i + 1)
      (if n ≤ r then out.set (r % n) (out.getD (r % n) 0 - c)
       else out.set r (out.getD r 0 + c))

/-- `impl Rem<(i64, usize)> for Poly` (src/poly.rs:97-126): the anticyclic
fold into `vec![0; degree]` followed by `mod_coeff` on every entry. -/
def polyRem (a : List Int) (q : Int) (n : Nat) : List Int :=
  (remFold n a 0 (List.replicate n 0)).map fun c => modCoeff c q

/-- The degree-reduction fold as the specification words it: subtract at
output index `r - n` when `r = i mod 2n` is at least `n`, add at `r`
otherwise. -/
def specFold (n : Nat) : List Int → Nat → List Int → List Int
  | [], _, out => out
  | c :: cs, i, out =>
    let r := i % (2 * n)
    specFold n cs (i + 1)
      (if n ≤ r then out.set (r - n) (out.getD (r - n) 0 - c)
       else out.set r (out.getD r 0 + c))

/-- Reduce as the specification describes it: the anticyclic fold with
subtraction index `r - n`, then `((c mod q) + q) mod q` on every entry. -/
def reduceSpec (a : List Int) (q : Int) (n : Nat) : List Int :=
  (specFold n a 0 (List.replicate n 0)).map fun c => modCoeff c q

/-- One pass of `Poly::decompose` (src/poly.rs:153-187) over the level list:
for level `i` divide every running coefficient by `base ^ i` truncating
toward zero (the source computes this quotient with an f64 division followed
by `floor` for positive and `ceil` for nonpositive quotients, i.e. exactly
`Int.tdiv`), emit the quotients as that level's digits, and subtract
`base ^ i * digit` from each running coefficient. -/
def decLevels (base : Int) : List Nat → List Int → List (List Int) × List Int
  | [], vals => ([], vals)
  | i :: rest, vals =>
    let bi := base ^ i
    let digits := vals.map fun v => v.tdiv bi
    let vals2 := vals.map fun v => v - bi * v.tdiv bi
    let res := decLevels base rest vals2
    (digits :: res.1, res.2)

/-- `Poly::decompose` (src/poly.rs:153-187): process levels `l-1` down to
`0`, then reverse, so the result is ordered from level 0 to level `l - 1`. -/
def polyDecompose (a : List Int) (l : Nat) (base : Int) : List (List Int) :=
  ((decLevels base ((List.range l).reverse) a).1).reverse

/-- The recomposition sum: `recompose base ds i` is
`ds[0] * base ^ i + ds[1] * base ^ (i+1) + ...`, so `recompose base ds 0` is
the sum over levels of `base ^ level * digit_level` from the decomposition
contract in src/poly.rs:151-152. -/
def recompose (base : Int) : List (List Int) → Nat → List Int
  | [], _ => []
  | d :: ds, i => polyAdd (polyScalarMul d (base ^ i)) (recompose base ds (i + 1))

/-- `impl Mul<f64> for Poly` applied to the factor `t / q` as done in
`basic_mul` (src/ciphertext.rs:64-67): multiply a coefficient by t/q and
round half away from zero.  The source computes
`(c as f64 * (t as f64 / q as f64)).round()`; for the library's parameters
(q and t positive powers of two, products below 2^53) the f64 computation is
exact, and this integer form is that exact value (q positive). -/
def scaleRound (c t q : Int) : Int :=
  let x := c * t
  if 0 ≤ x then (2 * x + q).tdiv (2 * q) else -((2 * (-x) + q).tdiv (2 * q))

/-- Elementwise `scaleRound`, i.e. `poly * delta_inv` for `delta_inv = t/q`. -/
def polyScaleRound (p : List Int) (t q : Int) : List Int :=
  p.map fun c => scaleRound c t q

/-- The `Ciphertext` struct of src/ciphertext.rs:13-18. -/
structure Ciphertext where
  c_0 : List Int
  c_1 : List Int
  q : Int
  t : Int
deriving DecidableEq, Repr

/-- The `RelinearizationKey1` struct of src/keys.rs:30-34. -/
structure RelinearizationKey1 where
  val : List (List Int × List Int)
  base : Int
  l : Nat
deriving DecidableEq, Repr

/-- `Ciphertext::basic_mul` (src/ciphertext.rs:54-70).  The four
`assert_eq!` degree checks abort the program on mismatch (`none`); otherwise
the three tensor components are scaled by t/q and reduced mod (q, degree). -/
def basicMul (x y : Ciphertext) : Option (List Int × List Int × List Int) :=
  let degree := x.c_0.length
  if x.c_1.length = degree ∧ y.c_0.length = degree ∧ y.c_1.length = degree then
    some (polyRem (polyScaleRound (polyMulRaw x.c_0 y.c_0) x.t x.q) x.q degree,
          polyRem (polyScaleRound (polyAdd (polyMulRaw x.c_0 y.c_1) (polyMulRaw x.c_1 y.c_0)) x.t x.q) x.q degree,
          polyRem (polyScaleRound (polyMulRaw x.c_1 y.c_1) x.t x.q) x.q degree)
  else none

/-- `Ciphertext::relinearization_1` (src/ciphertext.rs:72-104): decompose
`c_2`, accumulate the two sums of `rlk.val[i] * c_2_dec[i]` starting from
zero polynomials of length `degree`, and return the plain sums
`c_0 + c_2_0` and `c_1 + c_2_1` with `q` and `t` taken from `self`.
No reduction mod (q, degree) is applied to the returned components. -/
def relinearization1 (self : Ciphertext) (c0 c1 c2 : List Int)
    (rlk : RelinearizationKey1) : Ciphertext :=
  let degree := c0.length
  let c2dec := polyDecompose c2 rlk.l rlk.base
  let acc := (List.range rlk.l).foldl
    (fun (p : List Int × List Int) i =>
      (polyAdd p.1 (polyMulRaw (rlk.val.getD i ([], [])).1 (c2dec.getD i [])),
       polyAdd p.2 (polyMulRaw (rlk.val.getD i ([], [])).2 (c2dec.getD i []))))
    (List.replicate degree 0, List.replicate degree 0)
  ⟨polyAdd c0 acc.1, polyAdd c1 acc.2, self.q, self.t⟩

/-- `impl Mul<(Ciphertext, &RelinearizationKey1)> for Ciphertext`
(src/ciphertext.rs:303-312): `basic_mul` then `relinearization_1`. -/
def mulRelin1 (x y : Ciphertext) (rlk : RelinearizationKey1) : Option Ciphertext :=
  (basicMul x y).map fun d => relinearization1 x d.1 d.2.1 d.2.2 rlk

/-- `impl Add<Ciphertext> for Ciphertext` (src/ciphertext.rs:162-172). -/
def ctAdd (x y : Ciphertext) : Ciphertext :=
  ⟨polyAdd x.c_0 y.c_0, polyAdd x.c_1 y.c_1, x.q, x.t⟩

/-- `impl Sub<Ciphertext> for Ciphertext` (src/ciphertext.rs:209-219). -/
def ctSub (x y : Ciphertext) : Ciphertext :=
  ⟨polySub x.c_0 y.c_0, polySub x.c_1 y.c_1, x.q, x.t⟩

/-- The `Poly` struct as src/plaintext.rs uses it (fields `dimension`,
`val`, `q`); this earlier form of the polynomial type carries its modulus. -/
structure PolyQ where
  dimension : Nat
  val : List Int
  q : Int
deriving DecidableEq, Repr

/-- The `Plaintext` struct of src/plaintext.rs:7-11. -/
structure Plaintext where
  poly : PolyQ
  t : Int
deriving DecidableEq, Repr

/-- The public key as consumed by `Plaintext::encrypt`
(src/plaintext.rs:28-50): components `p_0`, `p_1` carrying their modulus. -/
structure PublicKey where
  p_0 : PolyQ
  p_1 : PolyQ
deriving DecidableEq, Repr

/-- The ciphertext as built by `Plaintext::encrypt` (src/plaintext.rs:49):
`Ciphertext { c_0, c_1 }`, two components and nothing else. -/
structure EncCiphertext where
  c_0 : List Int
  c_1 : List Int
deriving DecidableEq, Repr

/-- `Plaintext::new` (src/plaintext.rs:14-25): `assert!(t > 1)` aborts the
program for t at most 1 (`none`); otherwise the coefficients are wrapped
unchanged with `dimension = msg.len()` and the given moduli. -/
def plaintextNew (msg : List Int) (t q : Int) : Option Plaintext :=
  if 1 < t then some ⟨⟨msg.length, msg, q⟩, t⟩ else none

/-- `Plaintext::encrypt` (src/plaintext.rs:28-50).  The two `assert!` modulus
checks abort on mismatch (`none`).  `u`, `e1`, `e2` stand for the values the
random source returned for this call.  `delta` is
`(q as f64 / t as f64).floor() as i64`, exact truncating division for the
library's positive parameters.  The components are
`p_0 * u + e_1 + m * delta` and `p_1 * u + e_2`; no reduction mod
(q, dimension) is applied (polynomial arithmetic on the carried coefficient
lists is the ring arithmetic of src/poly.rs). -/
def encrypt (pt : Plaintext) (pk : PublicKey) (u e1 e2 : List Int) :
    Option EncCiphertext :=
  if pt.poly.q = pk.p_0.q ∧ pk.p_0.q = pk.p_1.q then
    let q := pt.poly.q
    let delta := q.tdiv pt.t
    some ⟨polyAdd (polyAdd (polyMulRaw pk.p_0.val u) e1) (polyScalarMul pt.poly.val delta),
          polyAdd (polyMulRaw pk.p_1.val u) e2⟩
  else none

/-- `SecretKey::relin_key_gen_1` (src/keys.rs:133-157).  `a` and `e` are the
streams of values the random source returned for iterations 0, 1, ...  The
level count in the source is `(q as f64).log(base as f64).floor() as usize`,
an IEEE binary64 computation (`ln q / ln base`, then floor) that the integer
embedding cannot reproduce and that deviates from the exact floor logarithm
at some inputs; like the rng draws, `l` stands for the value that
computation produced.  Entry i is
`(-(a_i * s + e_i) + s * s * base^i reduced mod (q, degree), a_i)`. -/
def relinKeyGen1 (s : List Int) (q : Int) (base : Int) (l : Nat)
    (a e : Nat → List Int) : List (List Int × List Int) :=
  let degree := s.length
  (List.range l).map fun i =>
    (polyRem (polyAdd (polyNeg (polyAdd (polyMulRaw (a i) s) (e i)))
        (polyScalarMul (polyMulRaw s s) (base ^ i))) q degree,
     a i)

/-! ### Pointwise toolkit for the padded elementwise operations -/

theorem getD_polyAdd (a b : List Int) (i : Nat) :
    (polyAdd a b).getD i 0 = a.getD i 0 + b.getD i 0 := by
  by_cases h : i < max a.length b.length
  · rw [polyAdd, List.getD_eq_getElem _ _ (by simpa using h)]
    simp only [List.getElem_map, List.getElem_range]
    by_cases ha : i < a.length <;> by_cases hb : i < b.length
    · simp [ha, hb]
    · rw [List.getD_eq_default b _ (Nat.le_of_not_lt hb)]
      simp [ha, hb]
    · rw [List.getD_eq_default a _ (Nat.le_of_not_lt ha)]
      simp [ha, hb]
    · exact absurd h (by omega)
  · have ha : a.length ≤ i := le_trans (le_max_left _ _) (Nat.le_of_not_lt h)
    have hb : b.length ≤ i := le_trans (le_max_right _ _) (Nat.le_of_not_lt h)
    rw [List.getD_eq_default _ _ (by simpa [polyAdd] using Nat.le_of_not_lt h),
        List.getD_eq_default _ _ ha, List.getD_eq_default _ _ hb]
    simp

theorem length_polyAdd (a b : List Int) :
    (polyAdd a b).length = max a.length b.length := by simp [polyAdd]

theorem ext_getD {a b : List Int} (hlen : a.length = b.length)
    (h : ∀ i, a.getD i 0 = b.getD i 0) : a = b := by
  apply List.ext_getElem hlen
  intro i h1 h2
  have := h i
  rwa [List.getD_eq_getElem _ _ h1, List.getD_eq_getElem _ _ h2] at this

theorem polyAdd_nil_right (a : List Int) : polyAdd a [] = a := by
  apply ext_getD (by simp [length_polyAdd])
  intro i
  rw [getD_polyAdd]
  simp

theorem polyAdd_nil_left (a : List Int) : polyAdd [] a = a := by
  apply ext_getD (by simp [length_polyAdd])
  intro i
  rw [getD_polyAdd]
  simp

theorem polyAdd_comm (a b : List Int) : polyAdd a b = polyAdd b a := by
  apply ext_getD (by simp [length_polyAdd, Nat.max_comm])
  intro i
  rw [getD_polyAdd, getD_polyAdd, Int.add_comm]

theorem polyAdd_assoc (a b c : List Int) :
    polyAdd (polyAdd a b) c = polyAdd a (polyAdd b c) := by
  apply ext_getD (by simp [length_polyAdd, Nat.max_assoc])
  intro i
  rw [getD_polyAdd, getD_polyAdd, getD_polyAdd, getD_polyAdd, Int.add_assoc]

theorem length_polyScalarMul (a : List Int) (k : Int) :
    (polyScalarMul a k).length = a.length := by simp [polyScalarMul]

theorem getD_map_of_zero {f : Int → Int} (hf : f 0 = 0) (a : List Int) (i : Nat) :
    (a.map f).getD i 0 = f (a.getD i 0) := by
  by_cases h : i < a.length
  · rw [List.getD_eq_getElem _ _ (by simpa using h), List.getD_eq_getElem _ _ h]
    simp
  · rw [List.getD_eq_default _ _ (by simpa using Nat.le_of_not_lt h),
        List.getD_eq_default _ _ (Nat.le_of_not_lt h), hf]

theorem getD_polyScalarMul (a : List Int) (k : Int) (i : Nat) :
    (polyScalarMul a k).getD i 0 = a.getD i 0 * k :=
  getD_map_of_zero (by simp) a i

/-! ### Coefficient reduction -/

theorem neg_tmod_left (a b : Int) : (-a).tmod b = -(a.tmod b) := by
  rw [Int.tmod_def, Int.tmod_def, Int.neg_tdiv]
  ring

theorem tmod_gt_neg (c : Int) {q : Int} (hq : 0 < q) : -q < c.tmod q := by
  rcases le_or_lt 0 c with hc | hc
  · have := Int.tmod_nonneg q hc
    omega
  · have h1 : (-c).tmod q < q := Int.tmod_lt_of_pos _ hq
    have h2 : c.tmod q = -((-c).tmod q) := by rw [← neg_tmod_left, neg_neg]
    omega

theorem modCoeff_nonneg (c : Int) {q : Int} (hq : 0 < q) : 0 ≤ modCoeff c q := by
  have h := tmod_gt_neg c hq
  exact Int.tmod_nonneg q (by omega)

theorem modCoeff_lt (c : Int) {q : Int} (hq : 0 < q) : modCoeff c q < q :=
  Int.tmod_lt_of_pos _ hq

/-! ### Degree reduction -/

theorem remFold_length (n : Nat) (cs : List Int) (i : Nat) (out : List Int) :
    (remFold n cs i out).length = out.length := by
  induction cs generalizing i out with
  | nil => rfl
  | cons c cs ih =>
    simp only [remFold]
    rw [ih]
    by_cases h : n ≤ i % (2 * n) <;> simp [h]

theorem remFold_eq_specFold (n : Nat) (hn : 0 < n) (cs : List Int) (i : Nat)
    (out : List Int) : remFold n cs i out = specFold n cs i out := by
  induction cs generalizing i out with
  | nil => rfl
  | cons c cs ih =>
    rw [remFold, specFold]
    have hr : i % (2 * n) < 2 * n := Nat.mod_lt _ (by omega)
    by_cases h : n ≤ i % (2 * n)
    · have hsub : i % (2 * n) % n = i % (2 * n) - n := by
        rw [Nat.mod_eq_sub_mod h, Nat.mod_eq_of_lt (by omega)]
      simp only [h, if_true, hsub]
      exact ih _ _
    · simp only [h, if_false]
      exact ih _ _

theorem polyRem_length (a : List Int) (q : Int) (n : Nat) :
    (polyRem a q n).length = n := by
  simp [polyRem, remFold_length]

theorem polyRem_range (a : List Int) {q : Int} (n : Nat) (hq : 0 < q) :
    ∀ c ∈ polyRem a q n, 0 ≤ c ∧ c < q := by
  intro c hc
  rcases List.mem_map.mp hc with ⟨v, _, rfl⟩
  exact ⟨modCoeff_nonneg v hq, modCoeff_lt v hq⟩

/-! ### Convolution -/

theorem convCoeff_comm (a b : List Int) (k : Nat) :
    convCoeff a b k = convCoeff b a k := by
  unfold convCoeff
  rw [Finset.sum_comm]
  refine Finset.sum_congr rfl fun j _ => Finset.sum_congr rfl fun i _ => ?_
  rw [Nat.add_comm i j, Int.mul_comm]

theorem polyMulRaw_comm (a b : List Int) : polyMulRaw a b = polyMulRaw b a := by
  unfold polyMulRaw
  rw [Nat.add_comm a.length b.length]
  exact List.map_congr_left fun k _ => convCoeff_comm a b k

/-! ### Decomposition -/

theorem decLevels_fst_length (base : Int) (lvls : List Nat) (vals : List Int) :
    ((decLevels base lvls vals).1).length = lvls.length := by
  induction lvls generalizing vals with
  | nil => rfl
  | cons i rest ih => simp [decLevels, ih]

theorem decLevels_row_length (base : Int) (lvls : List Nat) (vals : List Int) :
    ∀ p ∈ (decLevels base lvls vals).1, p.length = vals.length := by
  induction lvls generalizing vals with
  | nil => intro p hp; simp [decLevels] at hp
  | cons i rest ih =>
    intro p hp
    simp only [decLevels, List.mem_cons] at hp
    rcases hp with rfl | hp
    · simp
    · simpa using ih (vals.map fun v => v - base ^ i * v.tdiv (base ^ i)) p hp

theorem range_reverse_succ (l : Nat) :
    (List.range (l + 1)).reverse = l :: (List.range l).reverse := by
  simp [List.range_succ]

theorem polyDecompose_succ (a : List Int) (l : Nat) (base : Int) :
    polyDecompose a (l + 1) base =
      polyDecompose (a.map fun v => v - base ^ l * v.tdiv (base ^ l)) l base ++
        [a.map fun v => v.tdiv (base ^ l)] := by
  unfold polyDecompose
  rw [range_reverse_succ]
  simp [decLevels]

theorem polyDecompose_length (a : List Int) (l : Nat) (base : Int) :
    (polyDecompose a l base).length = l := by
  simp [polyDecompose, decLevels_fst_length]

theorem polyDecompose_row_length (a : List Int) (l : Nat) (base : Int) :
    ∀ p ∈ polyDecompose a l base, p.length = a.length := by
  intro p hp
  exact decLevels_row_length base _ a p (List.mem_reverse.mp hp)

theorem digits_add_remainder (a : List Int) (bi : Int) :
    polyAdd (polyScalarMul (a.map fun v => v.tdiv bi) bi)
        (a.map fun v => v - bi * v.tdiv bi) = a := by
  apply ext_getD
  · simp [length_polyAdd, length_polyScalarMul]
  · intro i
    rw [getD_polyAdd, getD_polyScalarMul,
        getD_map_of_zero (f := fun v => v.tdiv bi) (by simp) a i,
        getD_map_of_zero (f := fun v => v - bi * v.tdiv bi) (by simp) a i]
    ring

theorem recompose_append (base : Int) (xs : List (List Int)) (d : List Int)
    (i : Nat) :
    recompose base (xs ++ [d]) i =
      polyAdd (recompose base xs i) (polyScalarMul d (base ^ (i + xs.length))) := by
  induction xs generalizing i with
  | nil =>
    simp only [List.nil_append, recompose, List.length_nil, Nat.add_zero]
    rw [polyAdd_nil_right, polyAdd_nil_left]
  | cons x xs ih =>
    simp only [List.cons_append, recompose, List.length_cons, List.append_eq]
    rw [ih, ← polyAdd_assoc]
    have : i + 1 + xs.length = i + (xs.length + 1) := by omega
    rw [this]

theorem decompose_recompose (base : Int) (l : Nat) (hl : 1 ≤ l) (a : List Int) :
    recompose base (polyDecompose a l base) 0 = a := by
  induction l generalizing a with
  | zero => omega
  | succ k ih =>
    rcases Nat.eq_zero_or_pos k with hk | hk
    · subst hk
      have h0 : polyDecompose a 1 base = [a.map fun v => v.tdiv (base ^ 0)] := by
        unfold polyDecompose
        simp [decLevels]
      rw [h0]
      simp only [recompose]
      rw [polyAdd_nil_right]
      simp [polyScalarMul, List.map_map, Function.comp]
    · rw [polyDecompose_succ, recompose_append, polyDecompose_length,
          ih hk, Nat.zero_add, polyAdd_comm]
      exact digits_add_remainder a (base ^ k)

/-! ### Claim theorems -/

/-- C1 (counterexample): the claim that every ciphertext produced by the
public operations, in particular Mul with RelinearizationKey1, has components
of length exactly N with coefficients in [0, q) is false.  At the concrete
degree-2 input below (q = t = 16), Mul variant 1 returns first component
[67, 9, 0]: length 3, not 2, and coefficient 67 is not below q = 16 — the
pair (d0 + c2_0, d1 + c2_1) is returned without any reduction mod (q, N). -/
theorem mulRelin1_output_not_reduced :
    mulRelin1 ⟨[2, 0], [3, 0], 16, 16⟩ ⟨[2, 0], [3, 0], 16, 16⟩
        ⟨[([7, 1], [5, 2])], 4, 1⟩ =
      some ⟨[67, 9, 0], [57, 18, 0], 16, 16⟩ ∧
    ¬(([67, 9, 0] : List Int).length = 2) ∧ ¬((67 : Int) < 16) := by
  exact ⟨by decide, by decide, by decide⟩

/-- C1 (amended): Mul with RelinearizationKey1 applies no final reduction:
it returns exactly (d0 + c2_0, d1 + c2_1) with (q, t) from the left operand,
where only the BasicMul components (d0, d1, d2) are reduced mod (q, N) —
each has length N and all coefficients in [0, q). -/
theorem mulRelin1_components (x y : Ciphertext) (rlk : RelinearizationKey1)
    (h1 : x.c_1.length = x.c_0.length) (h2 : y.c_0.length = x.c_0.length)
    (h3 : y.c_1.length = x.c_0.length) (hq : 0 < x.q)
    (d : List Int × List Int × List Int) (hd : basicMul x y = some d) :
    mulRelin1 x y rlk = some (relinearization1 x d.1 d.2.1 d.2.2 rlk) ∧
    (relinearization1 x d.1 d.2.1 d.2.2 rlk).q = x.q ∧
    (relinearization1 x d.1 d.2.1 d.2.2 rlk).t = x.t ∧
    d.1.length = x.c_0.length ∧ d.2.1.length = x.c_0.length ∧
    d.2.2.length = x.c_0.length ∧
    (∀ c ∈ d.1, 0 ≤ c ∧ c < x.q) ∧ (∀ c ∈ d.2.1, 0 ≤ c ∧ c < x.q) ∧
    (∀ c ∈ d.2.2, 0 ≤ c ∧ c < x.q) := by
  rw [basicMul, if_pos ⟨h1, h2, h3⟩] at hd
  have hd' := (Option.some.injEq _ _).mp hd
  refine ⟨?_, rfl, rfl, ?_, ?_, ?_, ?_, ?_, ?_⟩
  · rw [mulRelin1, basicMul, if_pos ⟨h1, h2, h3⟩, hd]
    rfl
  · rw [← hd']
    exact polyRem_length _ _ _
  · rw [← hd']
    exact polyRem_length _ _ _
  · rw [← hd']
    exact polyRem_length _ _ _
  · rw [← hd']
    exact polyRem_range _ _ hq
  · rw [← hd']
    exact polyRem_range _ _ hq
  · rw [← hd']
    exact polyRem_range _ _ hq

/-- Witness for C1's amended theorem at a concrete degree-2 instance. -/
theorem mulRelin1_components_witness :
    basicMul ⟨[2, 0], [3, 0], 16, 16⟩ ⟨[2, 0], [3, 0], 16, 16⟩ =
      some ([4, 0], [12, 0], [9, 0]) ∧
    mulRelin1 ⟨[2, 0], [3, 0], 16, 16⟩ ⟨[2, 0], [3, 0], 16, 16⟩
        ⟨[([9, 9], [8, 8])], 4, 1⟩ =
      some (relinearization1 ⟨[2, 0], [3, 0], 16, 16⟩ [4, 0] [12, 0] [9, 0]
        ⟨[([9, 9], [8, 8])], 4, 1⟩) :=
  ⟨by decide,
   (mulRelin1_components ⟨[2, 0], [3, 0], 16, 16⟩ ⟨[2, 0], [3, 0], 16, 16⟩
      ⟨[([9, 9], [8, 8])], 4, 1⟩ (by decide) (by decide) (by decide) (by decide)
      ([4, 0], [12, 0], [9, 0]) (by decide)).1⟩

/-- C2 (code divergence): `Plaintext::encrypt` (src/plaintext.rs:28-50)
computes `c_0 = p_0 * u + e_1 + m * delta` with no `% (q, N)` reduction and
builds a ciphertext carrying no (q, t).  At m = [1], t = 2, q = 4,
p_0 = [3], p_1 = [2], samples u = [1], e_1 = [1], e_2 = [0], the code yields
c_0 = [6], whereas the claimed Reduce(p0·u + e1 + m·Δ, q, N) is [2], and
6 lies outside [0, 4). -/
theorem encrypt_missing_reduction :
    encrypt ⟨⟨1, [1], 4⟩, 2⟩ ⟨⟨1, [3], 4⟩, ⟨1, [2], 4⟩⟩ [1] [1] [0] =
      some ⟨[6], [2]⟩ ∧
    polyRem [6] 4 1 = [2] ∧ ¬((6 : Int) < 4) := by
  exact ⟨by decide, by decide, by decide⟩

/-- C3: for q > 0 and N > 0, `Poly % (q, N)` equals the anticyclic fold the
specification describes (add at r = i mod 2N when r < N, subtract at r − N
otherwise) followed by mapping each coefficient c to ((c mod q) + q) mod q;
the output has length exactly N and every coefficient lies in [0, q). -/
theorem polyRem_correct (a : List Int) (q : Int) (n : Nat) (hq : 0 < q)
    (hn : 0 < n) :
    polyRem a q n = reduceSpec a q n ∧ (polyRem a q n).length = n ∧
    ∀ c ∈ polyRem a q n, 0 ≤ c ∧ c < q := by
  refine ⟨?_, polyRem_length a q n, polyRem_range a n hq⟩
  unfold polyRem reduceSpec
  rw [remFold_eq_specFold n hn]

/-- Witness for C3 on the repository's own `coeff_modulo_test` vector. -/
theorem polyRem_correct_witness :
    (0 : Int) < 4 ∧ 0 < 10 ∧
    polyRem [-7, 0, 0, 3, -1, 6, -3, 5, 9, -5] 4 10 =
      reduceSpec [-7, 0, 0, 3, -1, 6, -3, 5, 9, -5] 4 10 ∧
    polyRem [-7, 0, 0, 3, -1, 6, -3, 5, 9, -5] 4 10 =
      [1, 0, 0, 3, 3, 2, 1, 1, 1, 3] :=
  ⟨by decide, by decide,
   (polyRem_correct [-7, 0, 0, 3, -1, 6, -3, 5, 9, -5] 4 10 (by decide)
      (by decide)).1,
   by decide⟩

/-- C4 (code divergence): at q = 1000, base T = 10 the source's level count
`(1000_f64).log(10.0).floor() as usize` evaluates to 2 — the IEEE binary64
quotient ln(1000)/ln(10) is 2.999999999999999556, just below 3 — so
relin_key_gen_1 returns 2 pairs, while the claim and the code's own comment
(`l = floor(log_T(q))`) require L = ⌊log_10 1000⌋ = 3 pairs.  The theorem
evaluates the embedding at that failing input with the f64-computed count
l = 2 and contrasts it with the exact floor logarithm. -/
theorem relinKeyGen1_level_divergence :
    (relinKeyGen1 [1, 0] 1000 10 2 (fun _ => [1, 1]) (fun _ => [1, 0])).length
      = 2 ∧
    Nat.log 10 1000 = 3 ∧ (2 : Nat) ≠ 3 :=
  ⟨by decide,
   Nat.log_eq_of_pow_le_of_lt_pow (by norm_num) (by norm_num),
   by decide⟩

/-- C5 (counterexample): with level count L = 0, `decompose` returns no
polynomials, so the recomposition sum is the empty polynomial and cannot
equal a = [1]; the claimed round-trip fails for L = 0. -/
theorem decompose_zero_levels :
    polyDecompose [1] 0 2 = [] ∧ recompose 2 (polyDecompose [1] 0 2) 0 ≠ [1] := by
  exact ⟨by decide, by decide⟩

/-- C5 (amended): `decompose(l, T)` returns exactly l polynomials, each of
the input's length, ordered from level 0 to level l − 1, and for every
l ≥ 1 the sum over levels of T^i · dec_i recomposes the input exactly in
Z[X]; for l = 0 the empty sum is the empty polynomial, not the input. -/
theorem polyDecompose_correct (a : List Int) (l : Nat) (base : Int) :
    (polyDecompose a l base).length = l ∧
    (∀ p ∈ polyDecompose a l base, p.length = a.length) ∧
    (1 ≤ l → recompose base (polyDecompose a l base) 0 = a) :=
  ⟨polyDecompose_length a l base, polyDecompose_row_length a l base,
   fun hl => decompose_recompose base l hl a⟩

/-- Witness for C5's amended theorem: a three-level base-2 decomposition
of [5, -3] recomposes exactly. -/
theorem polyDecompose_correct_witness :
    1 ≤ 3 ∧ recompose 2 (polyDecompose [5, -3] 3 2) 0 = [5, -3] :=
  ⟨by decide, (polyDecompose_correct [5, -3] 3 2).2.2 (by decide)⟩

/-- C6 (counterexample): multiplying two empty polynomials is not defined —
`vec![0; 0 + 0 - 1]` underflows and the program aborts, so no result of
length |a| + |b| − 1 is produced. -/
theorem polyMul_nil_nil : polyMul ([] : List Int) [] = none := rfl

/-- C6 (amended): for operands that are not both empty, polynomial Mul
returns the schoolbook convolution table, whose length is
|a| + |b| − 1 (stated as length + 1 = |a| + |b|), and it is commutative. -/
theorem polyMul_correct (a b : List Int) (h : 0 < a.length + b.length) :
    polyMul a b = some (polyMulRaw a b) ∧
    (polyMulRaw a b).length + 1 = a.length + b.length ∧
    polyMul a b = polyMul b a := by
  refine ⟨?_, ?_, ?_⟩
  · rw [polyMul, if_neg (by omega)]
  · simp only [polyMulRaw, List.length_map, List.length_range]
    omega
  · rw [polyMul, polyMul, if_neg (by omega), if_neg (by omega),
        polyMulRaw_comm]

/-- Witness for C6 on the repository's own `mul_poly_test` vector. -/
theorem polyMul_correct_witness :
    0 < ([4, 5, 2] : List Int).length + ([7, 9, 1] : List Int).length ∧
    polyMul [4, 5, 2] [7, 9, 1] = some [28, 71, 63, 23, 2] :=
  ⟨by decide,
   ((polyMul_correct [4, 5, 2] [7, 9, 1] (by decide)).1).trans (by decide)⟩

/-- C8 (counterexample): `Plaintext::new` accepts the coefficient 5 with
t = 2 and stores it unchanged, so a Plaintext whose coefficients are not in
[0, t) exists; the code never checks or reduces the coefficients. -/
theorem plaintextNew_accepts_out_of_range :
    plaintextNew [5] 2 7 = some ⟨⟨1, [5], 7⟩, 2⟩ ∧ ¬((5 : Int) < 2) := by
  exact ⟨by decide, by decide⟩

/-- C8 (amended): `Plaintext::new` stores the given coefficients unchanged,
so the stored coefficients lie in [0, t) exactly when the input ones do. -/
theorem plaintextNew_range_preserved (msg : List Int) (t q : Int)
    (ht : 1 < t) (h : ∀ c ∈ msg, 0 ≤ c ∧ c < t) :
    ∀ pt ∈ plaintextNew msg t q, ∀ c ∈ pt.poly.val, 0 ≤ c ∧ c < t := by
  intro pt hpt
  rw [plaintextNew, if_pos ht, Option.mem_def] at hpt
  have := (Option.some.injEq _ _).mp hpt
  rw [← this]
  exact h

/-- Witness for C8's amended theorem at msg = [1, 0], t = 2. -/
theorem plaintextNew_range_preserved_witness :
    (1 : Int) < 2 ∧ (∀ c ∈ ([1, 0] : List Int), 0 ≤ c ∧ c < 2) ∧
    ∀ pt ∈ plaintextNew [1, 0] 2 7, ∀ c ∈ pt.poly.val, 0 ≤ c ∧ c < 2 :=
  ⟨by decide, by decide,
   plaintextNew_range_preserved [1, 0] 2 7 (by decide) (by decide)⟩

/-- C9: `Plaintext::new` aborts exactly when t ≤ 1 (the `assert!(t > 1)`
guard), and for t > 1 returns normally, wrapping the coefficient sequence
unchanged with modulus t. -/
theorem plaintextNew_guard (msg : List Int) (t q : Int) :
    (plaintextNew msg t q = none ↔ t ≤ 1) ∧
    (1 < t → plaintextNew msg t q = some ⟨⟨msg.length, msg, q⟩, t⟩) := by
  constructor
  · by_cases h : 1 < t <;> simp [plaintextNew, h] <;> omega
  · intro h
    rw [plaintextNew, if_pos h]

/-- Witness for C9: new succeeds at t = 5 and aborts at t = 1. -/
theorem plaintextNew_guard_witness :
    plaintextNew [7] 5 9 = some ⟨⟨1, [7], 9⟩, 5⟩ ∧ plaintextNew [7] 1 9 = none :=
  ⟨(plaintextNew_guard [7] 5 9).2 (by decide),
   ((plaintextNew_guard [7] 1 9).1).mpr (by decide)⟩

/-- C10: ciphertext Add and Sub take the result's moduli from the left
operand only; replacing the right operand's q and t by any values changes
no field of the result. -/
theorem ctAdd_ctSub_frame (x y : Ciphertext) (q2 t2 : Int) :
    (ctAdd x y).q = x.q ∧ (ctAdd x y).t = x.t ∧
    (ctSub x y).q = x.q ∧ (ctSub x y).t = x.t ∧
    ctAdd x ⟨y.c_0, y.c_1, q2, t2⟩ = ctAdd x y ∧
    ctSub x ⟨y.c_0, y.c_1, q2, t2⟩ = ctSub x y :=
  ⟨rfl, rfl, rfl, rfl, rfl, rfl⟩

end Bfv
